import Mathlib

/-!
# Verification of the rift tunneling daemon against its specification

This development embeds the core operations of the rift repository
(crates wh-core and wh-daemon) as Lean definitions and proves, or
refutes, the specified properties of the secrets crypto pipeline, the
env-file vault, the peer-link codec, the daemon connect retry loop, the
stream bridges, the approval gate and the length-prefixed secrets
framing.

Strings from the Rust source are embedded as `List Char`; machine bytes
as `Nat` below 256; fallible operations return `Except RiftError`.
-/

namespace Rift

/-- Error kinds of `wh-core/src/error.rs` used by the verified
operations.  Each carries its message string, as in the source. -/
inductive RiftError where
  | streamError (msg : String)
  | proxyError (msg : String)
  | decryptionFailed (msg : String)
  | invalidPeerId (msg : String)
  | envParseError (msg : String)
  | dialError (msg : String)
  | serialization (msg : String)
  deriving DecidableEq, Repr

/-! ## Crypto primitives (wh-core/src/crypto.rs)

Modelled from the spec: X25519 and AES-256-GCM live in the external
crates `x25519_dalek` and `aes_gcm`, outside this repository.  §4.2 of
the spec describes them as elliptic-curve DH over a prime-order group
and an authenticated AEAD.  The prime-order subgroup of Curve25519 is
cyclic, hence isomorphic to `ZMod q` with scalar multiplication acting
as ring multiplication and basepoint `1`; the AEAD is modelled as a
byte-wise masking stream plus an idealised (collision-free)
authentication tag recording the key, nonce and body it authenticates.
The compositions `encrypt_for_recipient` and `decrypt_from_sender` are
translated directly from `crypto.rs`. -/

namespace Crypto

/-- Modelled from the spec: the basepoint of the DH group (§4.2),
i.e. the generator of the prime-order cyclic group `ZMod q`. -/
def basePoint (q : ℕ) : ZMod q := 1

/-- Key pair for X25519 key exchange (crypto.rs `KeyPair`): the secret
scalar; the public key is derived from it. -/
structure KeyPair (q : ℕ) where
  secret : ZMod q
  deriving DecidableEq

/-- crypto.rs `KeyPair::public_key_bytes`: the public key is the
secret scalar times the basepoint. -/
def KeyPair.public_key_bytes {q : ℕ} (kp : KeyPair q) : ZMod q :=
  kp.secret * basePoint q

/-- crypto.rs `KeyPair::diffie_hellman`: scalar-multiply the peer's
public point by our secret. -/
def KeyPair.diffie_hellman {q : ℕ} (kp : KeyPair q) (peerPublic : ZMod q) : ZMod q :=
  kp.secret * peerPublic

/-- crypto.rs `EphemeralKeyExchange::public_key_bytes`. -/
def ephemeralPublic {q : ℕ} (ephSecret : ZMod q) : ZMod q :=
  ephSecret * basePoint q

/-- crypto.rs `EphemeralKeyExchange::complete`: DH with the peer's
public key, consuming the ephemeral secret. -/
def ephemeralComplete {q : ℕ} (ephSecret : ZMod q) (peerPublic : ZMod q) : ZMod q :=
  ephSecret * peerPublic

/-- Modelled from the spec: the AES-256-GCM keystream byte at index
`i` for a given key and nonce (external `aes_gcm` crate).  Only its
dependence on key, nonce and position matters here. -/
def keystream {q : ℕ} (key : ZMod q) (nonce i : ℕ) : ℕ :=
  (key.val + nonce + i) % 256

/-- Modelled from the spec: byte-wise masking of the plaintext with
the keystream (the CTR layer of AES-GCM). -/
def maskBytes {q : ℕ} (key : ZMod q) (nonce : ℕ) : ℕ → List ℕ → List ℕ
  | _, [] => []
  | i, b :: bs => (b + keystream key nonce i) % 256 :: maskBytes key nonce (i + 1) bs

/-- Modelled from the spec: inverse of `maskBytes`. -/
def unmaskBytes {q : ℕ} (key : ZMod q) (nonce : ℕ) : ℕ → List ℕ → List ℕ
  | _, [] => []
  | i, c :: cs => (c + (256 - keystream key nonce i)) % 256 :: unmaskBytes key nonce (i + 1) cs

/-- Modelled from the spec: an AES-GCM ciphertext is the masked body
together with the authentication tag; the tag is idealised as a
collision-free record of the key, nonce and body it authenticates. -/
structure Ciphertext (q : ℕ) where
  body : List ℕ
  tag : ZMod q × ℕ × List ℕ
  deriving DecidableEq

/-- crypto.rs `SecretsCipher::encrypt` (the random nonce is passed as
a parameter): mask the plaintext and attach the authentication tag. -/
def SecretsCipher.encrypt {q : ℕ} (sharedSecret : ZMod q) (plaintext : List ℕ)
    (nonce : ℕ) : Ciphertext q :=
  let body := maskBytes sharedSecret nonce 0 plaintext
  ⟨body, (sharedSecret, nonce, body)⟩

/-- crypto.rs `SecretsCipher::decrypt`: check the tag, then unmask;
a tag mismatch is the AEAD failure, surfaced as `DecryptionFailed`. -/
def SecretsCipher.decrypt {q : ℕ} (sharedSecret : ZMod q) (ct : Ciphertext q)
    (nonce : ℕ) : Except RiftError (List ℕ) :=
  if ct.tag = (sharedSecret, nonce, ct.body) then
    .ok (unmaskBytes sharedSecret nonce 0 ct.body)
  else
    .error (.decryptionFailed "aead::Error")

/-- crypto.rs `encrypt_for_recipient`: generate an ephemeral keypair
(the ephemeral secret and the fresh random nonce are parameters),
derive the shared secret by DH with the recipient's public key, AEAD
encrypt, and return (ephemeral public, ciphertext, nonce). -/
def encrypt_for_recipient {q : ℕ} (recipientPublicKey : ZMod q) (plaintext : List ℕ)
    (ephSecret : ZMod q) (nonce : ℕ) : ZMod q × Ciphertext q × ℕ :=
  let ephPub := ephemeralPublic ephSecret
  let sharedSecret := ephemeralComplete ephSecret recipientPublicKey
  (ephPub, SecretsCipher.encrypt sharedSecret plaintext nonce, nonce)

/-- crypto.rs `decrypt_from_sender`: derive the shared secret from our
static secret and the sender's ephemeral public key, then decrypt. -/
def decrypt_from_sender {q : ℕ} (ourKeypair : KeyPair q) (senderEphemeralPublic : ZMod q)
    (ct : Ciphertext q) (nonce : ℕ) : Except RiftError (List ℕ) :=
  SecretsCipher.decrypt (ourKeypair.diffie_hellman senderEphemeralPublic) ct nonce

theorem unmask_mask {q : ℕ} (key : ZMod q) (nonce : ℕ) (pt : List ℕ)
    (hpt : ∀ b ∈ pt, b < 256) :
    ∀ i, unmaskBytes key nonce i (maskBytes key nonce i pt) = pt := by
  induction pt with
  | nil => intro i; rfl
  | cons b bs ih =>
      intro i
      have hb : b < 256 := hpt b (List.mem_cons_self b bs)
      have hks : keystream key nonce i < 256 := Nat.mod_lt _ (by omega)
      simp only [maskBytes, unmaskBytes, List.cons.injEq]
      refine ⟨by omega, ih (fun x hx => hpt x (List.mem_cons_of_mem b hx)) (i + 1)⟩

theorem SecretsCipher.decrypt_encrypt {q : ℕ} (k : ZMod q) (pt : List ℕ) (nonce : ℕ)
    (hpt : ∀ b ∈ pt, b < 256) :
    SecretsCipher.decrypt k (SecretsCipher.encrypt k pt nonce) nonce = .ok pt := by
  simp [SecretsCipher.decrypt, SecretsCipher.encrypt, unmask_mask k nonce pt hpt 0]

end Crypto

/-- C1: for any recipient keypair `r` and plaintext `p` (of bytes),
`decrypt_from_sender` applied to the (ephemeral public, ciphertext,
nonce) triple produced by `encrypt_for_recipient(r.public, p)` returns
exactly `p`: the ephemeral-static DH + AEAD pipeline round-trips every
plaintext. -/
theorem crypto_roundtrip {q : ℕ} (r : Crypto.KeyPair q) (e : ZMod q) (nonce : ℕ)
    (pt : List ℕ) (hpt : ∀ b ∈ pt, b < 256) :
    Crypto.decrypt_from_sender r
      (Crypto.encrypt_for_recipient r.public_key_bytes pt e nonce).1
      (Crypto.encrypt_for_recipient r.public_key_bytes pt e nonce).2.1
      (Crypto.encrypt_for_recipient r.public_key_bytes pt e nonce).2.2 = .ok pt := by
  have hkey : Crypto.KeyPair.diffie_hellman r (Crypto.ephemeralPublic e)
      = Crypto.ephemeralComplete e r.public_key_bytes := by
    simp only [Crypto.KeyPair.diffie_hellman, Crypto.ephemeralPublic,
      Crypto.ephemeralComplete, Crypto.KeyPair.public_key_bytes, Crypto.basePoint]
    ring
  simp only [Crypto.decrypt_from_sender, Crypto.encrypt_for_recipient, hkey]
  exact Crypto.SecretsCipher.decrypt_encrypt _ pt nonce hpt

/-- Witness for C1 at a concrete keypair, ephemeral secret, nonce and
plaintext. -/
theorem crypto_roundtrip_witness :
    Crypto.decrypt_from_sender (q := 5) ⟨2⟩
      (Crypto.encrypt_for_recipient (Crypto.KeyPair.public_key_bytes (q := 5) ⟨2⟩) [104, 105] 3 7).1
      (Crypto.encrypt_for_recipient (Crypto.KeyPair.public_key_bytes (q := 5) ⟨2⟩) [104, 105] 3 7).2.1
      (Crypto.encrypt_for_recipient (Crypto.KeyPair.public_key_bytes (q := 5) ⟨2⟩) [104, 105] 3 7).2.2
      = .ok [104, 105] :=
  crypto_roundtrip (q := 5) ⟨2⟩ 3 7 [104, 105] (by decide)

/-- C2: for keypairs `a` and `b` with distinct public keys, decrypting
an output of `encrypt_for_recipient(a.public, p)` using keypair `b`
fails with the `DecryptionFailed` error kind: it never returns a
plaintext (the ephemeral scalar is nonzero, as X25519 clamping
guarantees for the real scalars). -/
theorem wrong_recipient_fails {q : ℕ} (hq : q.Prime) (a b : Crypto.KeyPair q)
    (e : ZMod q) (he : e ≠ 0)
    (hab : a.public_key_bytes ≠ b.public_key_bytes) (nonce : ℕ) (pt : List ℕ) :
    Crypto.decrypt_from_sender b
      (Crypto.encrypt_for_recipient a.public_key_bytes pt e nonce).1
      (Crypto.encrypt_for_recipient a.public_key_bytes pt e nonce).2.1
      (Crypto.encrypt_for_recipient a.public_key_bytes pt e nonce).2.2
      = .error (RiftError.decryptionFailed "aead::Error") := by
  haveI : Fact q.Prime := ⟨hq⟩
  have hsec : a.secret ≠ b.secret := by
    intro h
    exact hab (by simp [Crypto.KeyPair.public_key_bytes, h])
  have hkeys : Crypto.KeyPair.diffie_hellman b (Crypto.ephemeralPublic e)
      ≠ Crypto.ephemeralComplete e a.public_key_bytes := by
    simp only [Crypto.KeyPair.diffie_hellman, Crypto.ephemeralPublic,
      Crypto.ephemeralComplete, Crypto.KeyPair.public_key_bytes, Crypto.basePoint,
      mul_one]
    intro h
    have : b.secret = a.secret := by
      have h' : b.secret * e = a.secret * e := by rw [h]; ring
      exact mul_right_cancel₀ he h'
    exact hsec this.symm
  simp only [Crypto.decrypt_from_sender, Crypto.encrypt_for_recipient,
    Crypto.SecretsCipher.encrypt, Crypto.SecretsCipher.decrypt]
  rw [if_neg]
  intro hcontra
  exact hkeys (congrArg Prod.fst hcontra).symm

/-- Witness for C2 at concrete distinct keypairs over the prime field
`ZMod 5`. -/
theorem wrong_recipient_fails_witness :
    Nat.Prime 5 ∧ (1 : ZMod 5) ≠ 0 ∧
    Crypto.KeyPair.public_key_bytes (q := 5) ⟨1⟩ ≠ Crypto.KeyPair.public_key_bytes ⟨2⟩ ∧
    Crypto.decrypt_from_sender (q := 5) ⟨2⟩
      (Crypto.encrypt_for_recipient (Crypto.KeyPair.public_key_bytes (q := 5) ⟨1⟩) [42] 1 7).1
      (Crypto.encrypt_for_recipient (Crypto.KeyPair.public_key_bytes (q := 5) ⟨1⟩) [42] 1 7).2.1
      (Crypto.encrypt_for_recipient (Crypto.KeyPair.public_key_bytes (q := 5) ⟨1⟩) [42] 1 7).2.2
      = .error (RiftError.decryptionFailed "aead::Error") :=
  ⟨by decide, by decide, by decide,
    wrong_recipient_fails (by decide) ⟨1⟩ ⟨2⟩ 1 (by decide) (by decide) 7 [42]⟩

/-! ## Length-prefixed secrets framing (wh-core/src/network/swarm.rs)

`receive_secrets` reads a 4-byte big-endian length prefix, rejects
lengths above 10 MiB, then reads that many payload bytes.  The final
bincode decode of the payload is outside the length gate and is left
abstract: the embedding returns the raw payload bytes.  The second
component of the result counts the bytes consumed from the stream. -/

/-- swarm.rs `receive_secrets`: the 10 MiB cap on a received message. -/
def maxSecretsMessageSize : ℕ := 10 * 1024 * 1024

/-- Value of a 4-byte big-endian length prefix (`u32::from_be_bytes`). -/
def beValue (b0 b1 b2 b3 : ℕ) : ℕ := ((b0 * 256 + b1) * 256 + b2) * 256 + b3

/-- swarm.rs `receive_secrets` over a byte stream: read the 4-byte
big-endian length, fail with `StreamError "Message too large"` if it
exceeds 10 MiB, otherwise read that many payload bytes.  Returns the
result and the number of bytes consumed from the stream. -/
def receive_secrets (stream : List ℕ) : Except RiftError (List ℕ) × ℕ :=
  match stream with
  | b0 :: b1 :: b2 :: b3 :: rest =>
      let len := beValue b0 b1 b2 b3
      if len > maxSecretsMessageSize then
        (.error (.streamError "Message too large"), 4)
      else if rest.length < len then
        (.error (.streamError "Failed to read data"), 4 + rest.length)
      else
        (.ok (rest.take len), 4 + len)
  | _ => (.error (.streamError "Failed to read length"), stream.length)

/-- C9: a length prefix above 10 MiB makes `receive_secrets` fail with
`StreamError "Message too large"` having consumed only the 4 prefix
bytes (the payload is not read); a length of at most 10 MiB is never
rejected by the size gate, and with enough stream bytes the payload is
read in full. -/
theorem receive_secrets_size_cap (b0 b1 b2 b3 : ℕ) (rest : List ℕ) :
    (beValue b0 b1 b2 b3 > maxSecretsMessageSize →
      receive_secrets (b0 :: b1 :: b2 :: b3 :: rest)
        = (.error (.streamError "Message too large"), 4)) ∧
    (beValue b0 b1 b2 b3 ≤ maxSecretsMessageSize →
      (receive_secrets (b0 :: b1 :: b2 :: b3 :: rest)).1
          ≠ .error (.streamError "Message too large") ∧
      (beValue b0 b1 b2 b3 ≤ rest.length →
        receive_secrets (b0 :: b1 :: b2 :: b3 :: rest)
          = (.ok (rest.take (beValue b0 b1 b2 b3)), 4 + beValue b0 b1 b2 b3))) := by
  refine ⟨fun hbig => ?_, fun hsmall => ⟨?_, fun hfit => ?_⟩⟩
  · simp only [receive_secrets, if_pos hbig]
  · simp only [receive_secrets, if_neg (by omega : ¬ beValue b0 b1 b2 b3 > maxSecretsMessageSize)]
    by_cases hr : rest.length < beValue b0 b1 b2 b3 <;> simp [hr]
  · simp only [receive_secrets,
      if_neg (by omega : ¬ beValue b0 b1 b2 b3 > maxSecretsMessageSize),
      if_neg (by omega : ¬ rest.length < beValue b0 b1 b2 b3)]

/-- Witness for C9: an oversize prefix (16 MiB) is rejected after 4
bytes; a small prefix (2 bytes) is accepted and read. -/
theorem receive_secrets_size_cap_witness :
    (beValue 1 0 0 0 > maxSecretsMessageSize ∧
      receive_secrets [1, 0, 0, 0, 9, 9]
        = (.error (.streamError "Message too large"), 4)) ∧
    (beValue 0 0 0 2 ≤ maxSecretsMessageSize ∧ beValue 0 0 0 2 ≤ [9, 9, 9].length ∧
      receive_secrets [0, 0, 0, 2, 9, 9, 9] = (.ok [9, 9], 4 + beValue 0 0 0 2)) :=
  ⟨⟨by decide, (receive_secrets_size_cap 1 0 0 0 [9, 9]).1 (by decide)⟩,
    ⟨by decide, by decide,
      (receive_secrets_size_cap 0 0 0 2 [9, 9, 9]).2 (by decide) |>.2 (by decide)⟩⟩

/-! ## Connect retry policy (wh-daemon/src/server.rs, `DaemonCommand::Connect`)

The loop keeps a `retry_count` starting at 0 with `max_retries = 20`:
each iteration polls the network once, then calls `connect`; a success
breaks out; a failure with `retry_count < 20` increments the counter
and sleeps 250 ms; a failure at `retry_count = 20` breaks with that
error.  The attempt outcomes are a parameter `attempt : ℕ → Except _ _`
indexed by the value of `retry_count` at the time of the call; the
embedding recurses on the fuel `20 - retry_count` and counts connect
calls, sleeps and polls. -/

/-- server.rs: `max_retries = 20`. -/
def maxRetries : ℕ := 20

/-- server.rs: `retry_delay = Duration::from_millis(250)`. -/
def retryDelayMillis : ℕ := 250

instance {ε α : Type} [DecidableEq ε] [DecidableEq α] : DecidableEq (Except ε α) := fun x y =>
  match x, y with
  | .ok a, .ok b =>
      if h : a = b then .isTrue (congrArg _ h) else .isFalse (fun hc => h (Except.ok.inj hc))
  | .error a, .error b =>
      if h : a = b then .isTrue (congrArg _ h) else .isFalse (fun hc => h (Except.error.inj hc))
  | .ok _, .error _ => .isFalse (fun hc => Except.noConfusion hc)
  | .error _, .ok _ => .isFalse (fun hc => Except.noConfusion hc)

/-- Observable trace of one run of the connect retry loop. -/
structure RetryTrace where
  result : Except RiftError ℕ
  attempts : ℕ
  sleeps : ℕ
  polls : ℕ
  deriving DecidableEq, Repr

/-- The retry loop at `retry_count = maxRetries - fuel`; each
iteration is poll, connect, and on retryable failure a 250 ms sleep. -/
def connectRetryGo (attempt : ℕ → Except RiftError ℕ) (idx : ℕ) : ℕ → RetryTrace
  | 0 =>
      match attempt idx with
      | .ok pid => ⟨.ok pid, 1, 0, 1⟩
      | .error e => ⟨.error e, 1, 0, 1⟩
  | fuel + 1 =>
      match attempt idx with
      | .ok pid => ⟨.ok pid, 1, 0, 1⟩
      | .error _ =>
          let t := connectRetryGo attempt (idx + 1) fuel
          ⟨t.result, t.attempts + 1, t.sleeps + 1, t.polls + 1⟩

/-- server.rs: the whole retry loop of the Connect command handler. -/
def connectRetry (attempt : ℕ → Except RiftError ℕ) : RetryTrace :=
  connectRetryGo attempt 0 maxRetries

/-- server.rs: what the Connect handler does after the retry loop: on
success bind the local listener and set connect-state, emitting
`TunnelEstablished`; on a bind failure or a connect failure emit an
`Error` event and leave connect-state unset (`none`). -/
def connectAfterRetry (t : RetryTrace) (bindResult : Except String Unit)
    (localPort : ℕ) : Option (ℕ × ℕ) × List String :=
  match t.result with
  | .ok pid =>
      match bindResult with
      | .ok _ => (some (pid, localPort), ["TunnelEstablished"])
      | .error msg => (none, ["Failed to bind port: " ++ msg])
  | .error _ => (none, ["Failed to connect"])

theorem connectRetryGo_first_ok (attempt : ℕ → Except RiftError ℕ) :
    ∀ (fuel idx k pid : ℕ), k ≤ fuel →
      (∀ i, idx ≤ i → i < idx + k → ∃ e, attempt i = .error e) →
      attempt (idx + k) = .ok pid →
      connectRetryGo attempt idx fuel = ⟨.ok pid, k + 1, k, k + 1⟩ := by
  intro fuel
  induction fuel with
  | zero =>
      intro idx k pid hk _ hok
      interval_cases k
      simp only [connectRetryGo, Nat.add_zero] at hok ⊢
      rw [hok]
  | succ f ih =>
      intro idx k pid hk hfail hok
      match k, hk with
      | 0, _ =>
          simp only [Nat.add_zero] at hok
          simp only [connectRetryGo, hok]
      | j + 1, hk =>
          obtain ⟨e, he⟩ := hfail idx (Nat.le_refl idx) (by omega)
          have hok' : attempt (idx + 1 + j) = .ok pid := by
            rw [show idx + 1 + j = idx + (j + 1) by omega]; exact hok
          have hrec := ih (idx + 1) j pid (by omega)
            (fun i h1 h2 => hfail i (by omega) (by omega)) hok'
          simp only [connectRetryGo, he, hrec]

theorem connectRetryGo_all_fail (attempt : ℕ → Except RiftError ℕ) (e : ℕ → RiftError) :
    ∀ (fuel idx : ℕ),
      (∀ i, idx ≤ i → i ≤ idx + fuel → attempt i = .error (e i)) →
      connectRetryGo attempt idx fuel
        = ⟨.error (e (idx + fuel)), fuel + 1, fuel, fuel + 1⟩ := by
  intro fuel
  induction fuel with
  | zero =>
      intro idx hfail
      simp only [connectRetryGo, hfail idx (Nat.le_refl idx) (by omega), Nat.add_zero]
  | succ f ih =>
      intro idx hfail
      have hrec := ih (idx + 1) (fun i h1 h2 => hfail i (by omega) (by omega))
      rw [show idx + (f + 1) = idx + 1 + f by omega]
      simp only [connectRetryGo, hfail idx (Nat.le_refl idx) (by omega), hrec]

/-- C6 counterexample: with every attempt failing, the code calls
`connect` 21 times, not the 20 the claim states (the loop breaks only
when an attempt fails with `retry_count` already equal to 20, which is
the 21st call). -/
theorem connect_retry_counterexample :
    (connectRetry (fun _ => .error (.dialError "no route"))).attempts = 21 ∧
      (21 : ℕ) ≠ 20 := ⟨rfl, by decide⟩

/-- C6 (amended): on a Connect command the daemon attempts
`connect(link)` up to 21 times (one initial attempt plus at most 20
retries) at 250 ms intervals, polling the network before each attempt;
the first successful attempt ends the retry loop and its Peer ID is
used; after all 21 attempts fail, the last error is surfaced as an
Error event and connect-state stays unset. -/
theorem connect_retry_policy :
    (∀ (attempt : ℕ → Except RiftError ℕ) (k pid : ℕ),
      k ≤ maxRetries → (∀ i, i < k → ∃ e, attempt i = .error e) →
      attempt k = .ok pid →
      connectRetry attempt = ⟨.ok pid, k + 1, k, k + 1⟩) ∧
    (∀ (attempt : ℕ → Except RiftError ℕ) (e : ℕ → RiftError),
      (∀ i, i ≤ maxRetries → attempt i = .error (e i)) →
      connectRetry attempt
        = ⟨.error (e maxRetries), maxRetries + 1, maxRetries, maxRetries + 1⟩) ∧
    (∀ (t : RetryTrace) (e : RiftError) (bindResult : Except String Unit) (lp : ℕ),
      t.result = .error e →
      connectAfterRetry t bindResult lp = (none, ["Failed to connect"])) ∧
    (∀ (t : RetryTrace) (pid lp : ℕ), t.result = .ok pid →
      connectAfterRetry t (.ok ()) lp = (some (pid, lp), ["TunnelEstablished"])) := by
  refine ⟨?_, ?_, ?_, ?_⟩
  · intro attempt k pid hk hfail hok
    exact connectRetryGo_first_ok attempt maxRetries 0 k pid hk
      (fun i _ h2 => hfail i (by omega)) (by simpa using hok)
  · intro attempt e hfail
    have := connectRetryGo_all_fail attempt e maxRetries 0
      (fun i _ h2 => hfail i (by omega))
    simpa [connectRetry] using this
  · intro t e bindResult lp ht
    simp [connectAfterRetry, ht]
  · intro t pid lp ht
    simp [connectAfterRetry, ht]

/-- Witness for C6 at a concrete always-failing attempt function and a
concrete success-at-attempt-3 function. -/
theorem connect_retry_policy_witness :
    connectRetry (fun _ => .error (.dialError "d"))
      = ⟨.error (.dialError "d"), 21, 20, 21⟩ ∧
    connectRetry (fun i => if i < 3 then .error (.dialError "d") else .ok 77)
      = ⟨.ok 77, 4, 3, 4⟩ ∧
    connectAfterRetry ⟨.error (.dialError "d"), 21, 20, 21⟩ (.ok ()) 8080
      = (none, ["Failed to connect"]) :=
  ⟨connect_retry_policy.2.1 (fun _ => .error (.dialError "d")) (fun _ => .dialError "d")
      (fun i _ => rfl),
    connect_retry_policy.1 (fun i => if i < 3 then .error (.dialError "d") else .ok 77) 3 77
      (by decide) (fun i hi => ⟨.dialError "d", by simp [hi]⟩) (by decide),
    connect_retry_policy.2.2.1 _ (.dialError "d") (.ok ()) 8080 rfl⟩

/-! ## Stream bridges (wh-daemon/src/server.rs `bridge_with_stats`,
wh-core/src/network/swarm.rs `bridge_stream_to_tcp`)

Each copy loop reads into an 8 KiB buffer and terminates on clean EOF,
a read error, or a write error; its I/O behaviour is a script of read
events.  Time is counted in loop iterations.  Modelled from the spec:
the `tokio::join!` combinator completes when both futures have
completed (duration = max), the `tokio::select!` combinator completes
as soon as either future completes (duration = min); both are external
tokio semantics. -/

/-- One iteration of a copy loop: a read returning `n` bytes whose
subsequent `write_all` succeeds or fails, a clean EOF, or a read
error. -/
inductive IoEv where
  | data (n : ℕ) (writeOk : Bool)
  | readEof
  | readErr
  deriving DecidableEq, Repr

/-- One copy loop (the `send_task` / `recv_task` bodies in
`bridge_with_stats`, or `tokio::io::copy` in `bridge_stream_to_tcp`):
returns (number of reads performed, total bytes copied).  It breaks on
EOF, a read error, or a write error; a successful chunk adds its bytes
to the running total and to the shared counter. -/
def copyLoop : List IoEv → ℕ × ℕ
  | [] => (0, 0)
  | .readEof :: _ => (1, 0)
  | .readErr :: _ => (1, 0)
  | .data n wOk :: rest =>
      if wOk then ((copyLoop rest).1 + 1, (copyLoop rest).2 + n) else (1, 0)

/-- A future with a completion time (in loop iterations) and value. -/
structure Fut (α : Type) where
  dur : ℕ
  val : α
  deriving DecidableEq, Repr

/-- Modelled from the spec: `tokio::join!` completes when both
futures have. -/
def joinF {α β : Type} (f : Fut α) (g : Fut β) : Fut (α × β) :=
  ⟨max f.dur g.dur, (f.val, g.val)⟩

/-- Modelled from the spec: `tokio::select!` completes as soon as
either future does, dropping the other; both bridge variants discard
the arm's value. -/
def selectF {α β : Type} (f : Fut α) (g : Fut β) : Fut Unit :=
  ⟨min f.dur g.dur, ()⟩

/-- A copy loop as a future: runs for as many iterations as it
performs reads, and yields its byte total. -/
def copyFut (evs : List IoEv) : Fut ℕ := ⟨(copyLoop evs).1, (copyLoop evs).2⟩

/-- server.rs `TrafficStats` (atomic counters; `u64` wraparound is
out of reach of any run considered here). -/
structure TrafficStats where
  bytes_sent : ℕ
  bytes_received : ℕ
  active_connections : ℕ
  deriving DecidableEq, Repr

/-- server.rs `bridge_with_stats`: dial `127.0.0.1:port` (outcome a
parameter; failure is `ProxyError` and the substream is dropped), then
run the TCP→stream loop (`send_task`, counting `bytes_sent`) and the
stream→TCP loop (`recv_task`, counting `bytes_received`) under
`tokio::join!`, returning the pair of byte totals. -/
def bridge_with_stats (dial : Except String Unit) (tcpReads streamReads : List IoEv)
    (stats : TrafficStats) : Fut (Except RiftError (ℕ × ℕ)) × TrafficStats :=
  match dial with
  | .error e =>
      (⟨0, .error (.proxyError ("Failed to connect to local port: " ++ e))⟩, stats)
  | .ok _ =>
      let send := copyFut tcpReads
      let recv := copyFut streamReads
      let j := joinF send recv
      (⟨j.dur, .ok (j.val.1, j.val.2)⟩,
        ⟨stats.bytes_sent + send.val, stats.bytes_received + recv.val,
          stats.active_connections⟩)

/-- swarm.rs `bridge_stream_to_tcp`: dial, then two `tokio::io::copy`
loops under `tokio::select!`; returns as soon as either loop ends. -/
def bridge_stream_to_tcp (dial : Except String Unit)
    (streamReads tcpReads : List IoEv) : Fut (Except RiftError Unit) :=
  match dial with
  | .error e =>
      ⟨0, .error (.proxyError ("Failed to connect to local port: " ++ e))⟩
  | .ok _ => ⟨(selectF (copyFut streamReads) (copyFut tcpReads)).dur, .ok ()⟩

/-- C3 counterexample: with the TCP side delivering one 5-byte chunk
before EOF (2 iterations) and the substream side at immediate EOF
(1 iteration), `bridge_with_stats` returns at time 2 — after BOTH
loops — although the claim says it returns as soon as either loop
terminates (time 1, as the `select!`-based `bridge_stream_to_tcp`
does). -/
theorem bridge_with_stats_counterexample :
    (bridge_with_stats (.ok ()) [.data 5 true, .readEof] [.readEof] ⟨0, 0, 0⟩).1.dur = 2 ∧
    min (copyLoop [.data 5 true, .readEof]).1 (copyLoop [.readEof]).1 = 1 ∧
    (bridge_stream_to_tcp (.ok ()) [.readEof] [.data 5 true, .readEof]).dur = 1 ∧
    (2 : ℕ) ≠ 1 :=
  ⟨rfl, rfl, rfl, by decide⟩

/-- C3 (amended): the stats-instrumented bridge, after a successful
dial, runs the two copy loops concurrently and returns only when BOTH
have terminated (duration is the max of the loop durations, and at
least either loop's duration: it waits for the other direction),
yielding the per-direction totals and adding them atomically to
`bytes_sent` / `bytes_received`; a dial failure surfaces `ProxyError`
before any copying. -/
theorem bridge_with_stats_waits_for_both :
    (∀ (e : String) (a b : List IoEv) (s : TrafficStats),
      bridge_with_stats (.error e) a b s
        = (⟨0, .error (.proxyError ("Failed to connect to local port: " ++ e))⟩, s)) ∧
    (∀ (a b : List IoEv) (s : TrafficStats),
      (bridge_with_stats (.ok ()) a b s).1.dur = max (copyLoop a).1 (copyLoop b).1 ∧
      (copyLoop a).1 ≤ (bridge_with_stats (.ok ()) a b s).1.dur ∧
      (copyLoop b).1 ≤ (bridge_with_stats (.ok ()) a b s).1.dur ∧
      (bridge_with_stats (.ok ()) a b s).1.val = .ok ((copyLoop a).2, (copyLoop b).2) ∧
      (bridge_with_stats (.ok ()) a b s).2
        = ⟨s.bytes_sent + (copyLoop a).2, s.bytes_received + (copyLoop b).2,
            s.active_connections⟩) := by
  refine ⟨fun e a b s => rfl, fun a b s => ⟨rfl, ?_, ?_, rfl, rfl⟩⟩
  · exact Nat.le_max_left _ _
  · exact Nat.le_max_right _ _

/-! ## Approval gate (wh-daemon/src/server.rs, incoming tunnel substreams)

With share-state set and auto-approve off, the handler inserts a
one-shot reply channel into `pending_approvals` keyed by the peer's
Peer-ID string, emits `IncomingConnectionRequest`, and awaits the
channel with a 30 s timeout.  `ApproveConnection` / `DenyConnection`
remove the entry and then signal it; the timeout branch removes the
entry itself.  The environment is a list of approve/deny commands for
arbitrary peers that get processed before the deadline; an exhausted
list is the 30 s timeout firing. -/

/-- server.rs: the 30-second approval deadline. -/
def approvalTimeoutSecs : ℕ := 30

/-- Insert into the pending-approval table (`HashMap::insert`:
replaces any previous entry for the key). -/
def pendingInsert (tbl : List String) (p : String) : List String :=
  p :: tbl.filter (fun x => !(x == p))

/-- Remove from the pending-approval table (`HashMap::remove`). -/
def pendingRemove (tbl : List String) (p : String) : List String :=
  tbl.filter (fun x => !(x == p))

/-- A command the control loop may process while an approval for some
peer is outstanding. -/
inductive ApprovalCmd where
  | approve (peer : String)
  | deny (peer : String)
  deriving DecidableEq, Repr

/-- The three possible outcomes for a non-auto-approved substream. -/
inductive ApprovalOutcome where
  | approved
  | denied
  | timedOut
  deriving DecidableEq, Repr

/-- The approval wait: each Approve/Deny command removes its peer's
entry and, if one was present, signals that one-shot channel; a
signal on the awaited channel resolves the wait; an exhausted command
list is the 30 s timeout, whose handler removes the entry. -/
def approvalWait (peer : String) : List ApprovalCmd → List String → ApprovalOutcome × List String
  | [], tbl => (.timedOut, pendingRemove tbl peer)
  | .approve p :: rest, tbl =>
      if tbl.contains p then
        if p == peer then (.approved, pendingRemove tbl p)
        else approvalWait peer rest (pendingRemove tbl p)
      else approvalWait peer rest tbl
  | .deny p :: rest, tbl =>
      if tbl.contains p then
        if p == peer then (.denied, pendingRemove tbl p)
        else approvalWait peer rest (pendingRemove tbl p)
      else approvalWait peer rest tbl

/-- server.rs: handling one inbound tunnel substream with share-state
set and auto-approve off: insert the pending entry, then wait. -/
def handleIncomingApproval (tbl : List String) (peer : String)
    (cmds : List ApprovalCmd) : ApprovalOutcome × List String :=
  approvalWait peer cmds (pendingInsert tbl peer)

theorem approvalWait_removes (peer : String) :
    ∀ (cmds : List ApprovalCmd) (tbl : List String),
      peer ∉ (approvalWait peer cmds tbl).2 := by
  intro cmds
  induction cmds with
  | nil =>
      intro tbl
      simp only [approvalWait, pendingRemove]
      intro hmem
      have := (List.mem_filter.mp hmem).2
      simp at this
  | cons c rest ih =>
      intro tbl
      match c with
      | .approve p | .deny p =>
          simp only [approvalWait]
          by_cases hc : tbl.contains p
          · simp only [hc, if_true]
            by_cases hp : p == peer
            · simp only [hp, if_true]
              intro hmem
              have := (List.mem_filter.mp hmem).2
              have hpe : p = peer := eq_of_beq hp
              subst hpe
              simp at this
            · simp only [hp, if_false]
              exact ih _
          · simp only [hc, if_false]
            exact ih _

/-- C7: for each inbound tunnel substream handled with share-state set
and auto-approve off, the wait resolves to exactly one of approved,
denied or timed-out, and afterwards the pending-approval table has no
entry for that peer's Peer-ID string — whatever commands the driver
issues and whether or not the 30 s timeout fires. -/
theorem approval_exclusivity (tbl : List String) (peer : String)
    (cmds : List ApprovalCmd) :
    ((handleIncomingApproval tbl peer cmds).1 = .approved ∨
      (handleIncomingApproval tbl peer cmds).1 = .denied ∨
      (handleIncomingApproval tbl peer cmds).1 = .timedOut) ∧
    peer ∉ (handleIncomingApproval tbl peer cmds).2 := by
  constructor
  · cases h : (handleIncomingApproval tbl peer cmds).1
    · exact Or.inl rfl
    · exact Or.inr (Or.inl rfl)
    · exact Or.inr (Or.inr rfl)
  · exact approvalWait_removes peer cmds (pendingInsert tbl peer)

/-! ## Env vault parsing and serialization (wh-core/src/secrets.rs)

Rust `&str` values are embedded as `List Char`.  `str::trim` is
embedded over the ASCII whitespace the files at hand contain;
`str::lines` splits on newline, strips a carriage return preceding a
newline, and drops a final empty segment; `str::split_once` splits at
the first occurrence.  The vault's map (`HashMap<String, String>`) is
an association list with most-recent insertion first and unique keys;
`HashMap::insert` replaces the previous value of the key.
`Vec::sort` on the serializer's lines is embedded as a structurally
recursive insertion sort (same sorted result). -/

/-- Rust string slices as lists of characters. -/
abbrev Str : Type := List Char

/-- The double-quote character. -/
def dq : Char := Char.ofNat 34

/-- The single-quote character. -/
def sq : Char := Char.ofNat 39

/-- `char::is_whitespace` for the ASCII whitespace. -/
def isWs (c : Char) : Bool := c == ' ' || c == '\t' || c == '\n' || c == '\r'

/-- `str::trim_start`. -/
def trimLeft (s : Str) : Str := s.dropWhile isWs

/-- `str::trim_end`. -/
def trimRight (s : Str) : Str := (s.reverse.dropWhile isWs).reverse

/-- `str::trim`. -/
def trim (s : Str) : Str := trimRight (trimLeft s)

/-- `str::split_once('=')`: split at the first `=`, excluding it. -/
def splitOnceEq : Str → Option (Str × Str)
  | [] => none
  | c :: rest =>
      if c = '=' then some ([], rest)
      else
        match splitOnceEq rest with
        | none => none
        | some (a, b) => some (c :: a, b)

/-- secrets.rs `EnvVault::parse_value`: trim, then strip one pair of
matching outer double or single quotes when the trimmed value has
length at least 2. -/
def parse_value (v : Str) : Str :=
  let w := trim v
  if ((w.head? = some dq ∧ w.getLast? = some dq) ∨
      (w.head? = some sq ∧ w.getLast? = some sq)) ∧ 2 ≤ w.length then
    (w.drop 1).dropLast
  else w

/-- The vault's secrets map. -/
abbrev EnvMap : Type := List (Str × Str)

/-- `HashMap::insert`: the new binding replaces any previous binding
of the same key. -/
def envInsert (m : EnvMap) (k v : Str) : EnvMap :=
  (k, v) :: m.filter (fun p => !(p.1 == k))

/-- secrets.rs: the message of the empty-key parse error. -/
def emptyKeyMsg (n : ℕ) : String := "Empty key at line " ++ toString n

/-- secrets.rs: the message of the missing-`=` parse error. -/
def invalidFormatMsg (n : ℕ) : String :=
  "Invalid format at line " ++ toString n ++ ": expected KEY=VALUE"

/-- secrets.rs `EnvVault::parse_env_contents`, line by line: trim the
line; skip it if empty or a `#` comment; split at the first `=`
(failing with `EnvParseError` and the 1-based line number otherwise);
trim the key (failing if empty) and run `parse_value` on the trimmed
remainder; insert.  On failure the map built so far is kept. -/
def parseEnvLines : EnvMap → ℕ → List Str → EnvMap × Option RiftError
  | m, _, [] => (m, none)
  | m, n, line :: rest =>
      let l := trim line
      if l = [] ∨ l.head? = some '#' then parseEnvLines m (n + 1) rest
      else
        match splitOnceEq l with
        | some (k₀, r₀) =>
            let key := trim k₀
            let value := parse_value (trim r₀)
            if key = [] then (m, some (.envParseError (emptyKeyMsg (n + 1))))
            else parseEnvLines (envInsert m key value) (n + 1) rest
        | none => (m, some (.envParseError (invalidFormatMsg (n + 1))))

/-- `str::split('\n')`. -/
def splitNl : Str → List Str
  | [] => [[]]
  | c :: rest =>
      if c = '\n' then [] :: splitNl rest
      else
        match splitNl rest with
        | [] => [[c]]
        | p :: ps => (c :: p) :: ps

/-- Strip one carriage return at the end of a line (`str::lines`
treats `\r\n` as a line ending). -/
def stripCr (l : Str) : Str := if l.getLast? = some '\r' then l.dropLast else l

/-- `str::lines`: split on `\n`, strip a `\r` before each `\n`, and
drop the final segment when it is empty (the final line ending is
optional; `splitNl` never returns an empty list, so the default of
`getLastD` is unreachable). -/
def rustLines (s : Str) : List Str :=
  let ps := splitNl s
  let last := ps.getLastD []
  if last = [] then ps.dropLast.map stripCr
  else ps.dropLast.map stripCr ++ [last]

/-- secrets.rs `EnvVault::parse_env_contents` on a whole file, from
the vault state `m`: the resulting map together with the error, if
any.  The map is returned in both cases: the Rust method mutates
`self.secrets` in place as it goes. -/
def parse_env_contents (m : EnvMap) (contents : Str) : EnvMap × Option RiftError :=
  parseEnvLines m 0 (rustLines contents)

/-- secrets.rs `to_env_format`: `value.replace('"', "\\\"")`. -/
def escapeDq (v : Str) : Str :=
  v.flatMap (fun c => if c = dq then ['\\', dq] else [c])

/-- secrets.rs `to_env_format`, one line: quote (double quotes, with
inner double quotes escaped) when the value contains a space or a
quote character; bare `key=value` otherwise. -/
def formatPair (p : Str × Str) : Str :=
  if p.2.contains ' ' || p.2.contains dq || p.2.contains sq then
    p.1 ++ '=' :: dq :: (escapeDq p.2 ++ [dq])
  else
    p.1 ++ '=' :: p.2

/-- Lexicographic byte order on strings (`Vec::<String>::sort`). -/
def lexLe : Str → Str → Bool
  | [], _ => true
  | _ :: _, [] => false
  | a :: as, b :: bs => if a = b then lexLe as bs else decide (a < b)

/-- Insert into a `lexLe`-sorted list of lines. -/
def insertSorted (x : Str) : List Str → List Str
  | [] => [x]
  | y :: ys => if lexLe x y then x :: y :: ys else y :: insertSorted x ys

/-- `lines.sort()` of the serializer, as insertion sort by `lexLe`. -/
def sortLines : List Str → List Str
  | [] => []
  | x :: xs => insertSorted x (sortLines xs)

/-- `lines.join("\n")`. -/
def joinNl : List Str → Str
  | [] => []
  | [l] => l
  | l :: ls => l ++ '\n' :: joinNl ls

/-- secrets.rs `EnvVault::to_env_format`: format every pair, sort the
lines, join with newlines. -/
def to_env_format (m : EnvMap) : Str := joinNl (sortLines (m.map formatPair))

/-- Quote stripping exactly as §4.3 words it: one pair of matching
outer single or double quotes is removed (no trimming of its own). -/
def stripQuotes (w : Str) : Str :=
  if ((w.head? = some dq ∧ w.getLast? = some dq) ∨
      (w.head? = some sq ∧ w.getLast? = some sq)) ∧ 2 ≤ w.length then
    (w.drop 1).dropLast
  else w

/-- The per-line env grammar as the spec words it, parameterized by
how the text after `=` becomes the value: trimmed lines; empty and
`#` lines skipped; `EnvParseError` with the 1-based line number on a
missing `=` or an empty trimmed key. -/
def specParseLinesWith (valueOf : Str → Str) :
    EnvMap → ℕ → List Str → EnvMap × Option RiftError
  | m, _, [] => (m, none)
  | m, n, line :: rest =>
      let l := trim line
      if l = [] ∨ l.head? = some '#' then specParseLinesWith valueOf m (n + 1) rest
      else
        match splitOnceEq l with
        | some (k₀, r₀) =>
            let key := trim k₀
            if key = [] then (m, some (.envParseError (emptyKeyMsg (n + 1))))
            else specParseLinesWith valueOf (envInsert m key (valueOf r₀)) (n + 1) rest
        | none => (m, some (.envParseError (invalidFormatMsg (n + 1))))

/-- The claim's literal reading of §4.3: the value is the remainder
after `=` with one pair of outer quotes stripped (no trim). -/
def specParseLiteral (m : EnvMap) (contents : Str) : EnvMap × Option RiftError :=
  specParseLinesWith stripQuotes m 0 (rustLines contents)

/-- C8 as amended: the value is the whitespace-trimmed remainder
after `=`, then one pair of outer quotes is stripped. -/
def specParseAmended (m : EnvMap) (contents : Str) : EnvMap × Option RiftError :=
  specParseLinesWith (fun r => stripQuotes (trim r)) m 0 (rustLines contents)

theorem dropWhile_dropWhile (p : Char → Bool) (s : Str) :
    (s.dropWhile p).dropWhile p = s.dropWhile p := by
  induction s with
  | nil => rfl
  | cons c t ih =>
      by_cases h : p c
      · simp [List.dropWhile_cons, h, ih]
      · simp [List.dropWhile_cons, h]

theorem head?_trimLeft {s : Str} {c : Char} (h : (trimLeft s).head? = some c) :
    isWs c = false := by
  induction s with
  | nil => simp [trimLeft] at h
  | cons a t ih =>
      by_cases ha : isWs a
      · exact ih (by simpa [trimLeft, List.dropWhile_cons, ha] using h)
      · simp only [trimLeft, List.dropWhile_cons, ha, Bool.false_eq_true, if_false,
          List.head?_cons, Option.some.injEq] at h
        subst h
        simpa using ha

theorem trimLeft_eq_self {s : Str} (h : ∀ c, s.head? = some c → isWs c = false) :
    trimLeft s = s := by
  match s with
  | [] => rfl
  | a :: t => simp [trimLeft, List.dropWhile_cons, h a rfl]

theorem trimRight_eq_reverse (s : Str) :
    trimRight s = (trimLeft s.reverse).reverse := rfl

theorem trimRight_prefix_self (s : Str) : trimRight s <+: s := by
  obtain ⟨t, ht⟩ := List.dropWhile_suffix (l := s.reverse) (p := isWs)
  exact ⟨t.reverse, by
    conv_rhs => rw [← s.reverse_reverse, ← ht]
    simp [trimRight]⟩

theorem getLast?_trimRight {s : Str} {c : Char} (h : (trimRight s).getLast? = some c) :
    isWs c = false := by
  rw [trimRight_eq_reverse, List.getLast?_reverse] at h
  exact head?_trimLeft h

theorem trimRight_eq_self {s : Str} (h : ∀ c, s.getLast? = some c → isWs c = false) :
    trimRight s = s := by
  rw [trimRight_eq_reverse, trimLeft_eq_self, List.reverse_reverse]
  intro c hc
  exact h c (by rwa [List.head?_reverse] at hc)

theorem trim_eq_self {s : Str} (hh : ∀ c, s.head? = some c → isWs c = false)
    (hl : ∀ c, s.getLast? = some c → isWs c = false) : trim s = s := by
  rw [trim, trimLeft_eq_self hh, trimRight_eq_self hl]

theorem prefix_head?_eq {p s : Str} (h : p <+: s) (hp : p ≠ []) :
    s.head? = p.head? := by
  obtain ⟨t, ht⟩ := h
  match p, hp with
  | a :: p', _ => rw [← ht]; rfl

theorem head?_trim {s : Str} {c : Char} (h : (trim s).head? = some c) :
    isWs c = false := by
  rw [trim] at h
  have hne : trimRight (trimLeft s) ≠ [] := by
    intro hnil; rw [hnil] at h; simp at h
  rw [← prefix_head?_eq (trimRight_prefix_self (trimLeft s)) hne] at h
  exact head?_trimLeft h

theorem getLast?_trim {s : Str} {c : Char} (h : (trim s).getLast? = some c) :
    isWs c = false := getLast?_trimRight h

theorem trim_idem (s : Str) : trim (trim s) = trim s :=
  trim_eq_self (fun _ h => head?_trim h) (fun _ h => getLast?_trim h)

theorem mem_trimLeft {x : Char} {s : Str} (h : x ∈ trimLeft s) : x ∈ s :=
  (List.dropWhile_sublist isWs).subset h

theorem mem_trim {x : Char} {s : Str} (h : x ∈ trim s) : x ∈ s := by
  rw [trim, trimRight_eq_reverse] at h
  rw [List.mem_reverse] at h
  exact mem_trimLeft (by simpa using mem_trimLeft h)

theorem splitOnceEq_some {s a b : Str} (h : splitOnceEq s = some (a, b)) :
    s = a ++ '=' :: b ∧ '=' ∉ a := by
  induction s generalizing a b with
  | nil => simp [splitOnceEq] at h
  | cons c t ih =>
      by_cases hc : c = '='
      · subst hc
        have hp : (([] : Str), t) = (a, b) :=
          Option.some.inj (by simpa [splitOnceEq] using h)
        cases hp
        simp
      · simp only [splitOnceEq, if_neg hc] at h
        match ht : splitOnceEq t with
        | none => rw [ht] at h; simp at h
        | some (a', b') =>
            rw [ht] at h
            simp only [Option.some.injEq, Prod.mk.injEq] at h
            obtain ⟨ha, hb⟩ := h
            subst hb
            obtain ⟨h1, h2⟩ := ih ht
            subst h1
            rw [← ha]
            refine ⟨rfl, ?_⟩
            simp only [List.mem_cons]
            rintro (h | h)
            · exact hc h.symm
            · exact h2 h

theorem splitOnceEq_append {a : Str} (b : Str) (h : '=' ∉ a) :
    splitOnceEq (a ++ '=' :: b) = some (a, b) := by
  induction a with
  | nil => simp [splitOnceEq]
  | cons c t ih =>
      have hc : c ≠ '=' := fun hc => h (by simp [hc])
      have ht : '=' ∉ t := fun hm => h (by simp [hm])
      simp only [List.cons_append, splitOnceEq, if_neg hc]
      rw [show t.append ('=' :: b) = t ++ '=' :: b from rfl, ih ht]

theorem escapeDq_eq_self {v : Str} (h : dq ∉ v) : escapeDq v = v := by
  induction v with
  | nil => rfl
  | cons c t ih =>
      have hc : c ≠ dq := fun hc => h (by simp [hc])
      have ht : dq ∉ t := fun hm => h (by simp [hm])
      simp [escapeDq] at ih ⊢
      simp [hc, ih ht]

theorem mem_escapeDq {c : Char} {v : Str} (h : c ∈ escapeDq v) :
    c ∈ v ∨ c = '\\' := by
  induction v with
  | nil => simp [escapeDq] at h
  | cons a t ih =>
      simp only [escapeDq, List.flatMap_cons, List.mem_append] at h
      rcases h with h | h
      · by_cases ha : a = dq
        · rw [if_pos ha] at h
          rcases List.mem_cons.mp h with h1 | h1
          · exact Or.inr h1
          · have : c = dq := List.mem_singleton.mp h1
            exact Or.inl (by simp [this, ha])
        · rw [if_neg ha] at h
          have : c = a := List.mem_singleton.mp h
          exact Or.inl (by simp [this])
      · rcases ih (by simpa [escapeDq] using h) with h' | h'
        · exact Or.inl (List.mem_cons_of_mem _ h')
        · exact Or.inr h'

theorem mem_parse_value {x : Char} {v : Str} (h : x ∈ parse_value v) : x ∈ v := by
  rw [parse_value] at h
  split at h
  · exact mem_trim (List.IsSuffix.subset (List.drop_suffix 1 (trim v))
      ((List.dropLast_sublist _).subset h))
  · exact mem_trim h

theorem splitNl_ne_nil (s : Str) : splitNl s ≠ [] := by
  cases s with
  | nil => simp [splitNl]
  | cons c t =>
      by_cases hc : c = '\n'
      · simp [splitNl, hc]
      · simp only [splitNl, if_neg hc]
        match splitNl t with
        | [] => simp
        | p :: ps => simp

theorem mem_splitNl_no_nl {s : Str} : ∀ {l : Str}, l ∈ splitNl s → '\n' ∉ l := by
  induction s with
  | nil =>
      intro l h
      have hl : l = [] := by simpa [splitNl] using h
      subst hl
      simp
  | cons c t ih =>
      intro l h
      by_cases hc : c = '\n'
      · rw [hc] at h
        have h' : l = [] ∨ l ∈ splitNl t := by simpa [splitNl] using h
        rcases h' with rfl | h'
        · simp
        · exact ih h'
      · simp only [splitNl, if_neg hc] at h
        match ht : splitNl t with
        | [] => exact absurd ht (splitNl_ne_nil t)
        | p :: ps =>
            rw [ht] at h
            rcases List.mem_cons.mp h with h1 | h1
            · subst h1
              intro hmem
              rcases List.mem_cons.mp hmem with h2 | h2
              · exact hc h2.symm
              · exact ih (ht ▸ List.mem_cons_self p ps) h2
            · exact ih (ht ▸ List.mem_cons_of_mem p h1)

theorem splitNl_no_nl {a : Str} (h : '\n' ∉ a) : splitNl a = [a] := by
  induction a with
  | nil => rfl
  | cons c t ih =>
      have hc : c ≠ '\n' := fun hc => h (by simp [hc])
      have ht : '\n' ∉ t := fun hm => h (by simp [hm])
      simp only [splitNl, if_neg hc, ih ht]

theorem splitNl_append {a : Str} (t : Str) (h : '\n' ∉ a) :
    splitNl (a ++ '\n' :: t) = a :: splitNl t := by
  induction a with
  | nil => simp [splitNl]
  | cons c u ih =>
      have hc : c ≠ '\n' := fun hc => h (by simp [hc])
      have hu : '\n' ∉ u := fun hm => h (by simp [hm])
      simp only [List.cons_append, splitNl, if_neg hc]
      rw [show u.append ('\n' :: t) = u ++ '\n' :: t from rfl, ih hu]

theorem splitNl_joinNl {ls : List Str} (hne : ls ≠ []) (h : ∀ l ∈ ls, '\n' ∉ l) :
    splitNl (joinNl ls) = ls := by
  induction ls with
  | nil => exact absurd rfl hne
  | cons l ls' ih =>
      cases ls' with
      | nil => exact splitNl_no_nl (h l (List.mem_singleton.mpr rfl))
      | cons l₂ ls'' =>
          have hstep : joinNl (l :: l₂ :: ls'') = l ++ '\n' :: joinNl (l₂ :: ls'') := rfl
          rw [hstep, splitNl_append _ (h l (List.mem_cons_self _ _)),
            ih (by simp) (fun x hx => h x (List.mem_cons_of_mem _ hx))]

theorem rustLines_joinNl {ls : List Str} (hne : ls ≠ [])
    (hnl : ∀ l ∈ ls, '\n' ∉ l) (hl : ∀ l ∈ ls, l ≠ [])
    (hcr : ∀ l ∈ ls, l.getLast? ≠ some '\r') :
    rustLines (joinNl ls) = ls := by
  have hsplit : splitNl (joinNl ls) = ls := splitNl_joinNl hne hnl
  have hlast : ls.getLast? = some (ls.getLast hne) := List.getLast?_eq_getLast ls hne
  have hlastmem : ls.getLast hne ∈ ls := List.getLast_mem hne
  have hlastD : ls.getLastD [] = ls.getLast hne := by
    rw [List.getLastD_eq_getLast?, hlast]
    rfl
  rw [rustLines]
  simp only [hsplit, hlastD, if_neg (hl _ hlastmem)]
  have hmap : ls.dropLast.map stripCr = ls.dropLast := by
    rw [List.map_congr_left, List.map_id]
    intro x hx
    have hxm : x ∈ ls := (List.dropLast_sublist ls).subset hx
    simp only [stripCr, if_neg (hcr x hxm), id]
  rw [hmap]
  exact List.dropLast_append_getLast hne

theorem mem_rustLines_no_nl {s l : Str} (h : l ∈ rustLines s) : '\n' ∉ l := by
  rw [rustLines] at h
  have hmem_of_strip : l ∈ (splitNl s).dropLast.map stripCr → '\n' ∉ l := by
    intro hm
    obtain ⟨x, hx, hxl⟩ := List.mem_map.mp hm
    have hxs : x ∈ splitNl s := (List.dropLast_sublist _).subset hx
    have hnx : '\n' ∉ x := mem_splitNl_no_nl hxs
    subst hxl
    intro hcontra
    rw [stripCr] at hcontra
    split at hcontra
    · exact hnx ((List.dropLast_sublist x).subset hcontra)
    · exact hnx hcontra
  split at h
  · exact hmem_of_strip h
  · rcases List.mem_append.mp h with h1 | h1
    · exact hmem_of_strip h1
    · have hl : l = (splitNl s).getLastD [] := List.mem_singleton.mp h1
      subst hl
      have hne := splitNl_ne_nil s
      have hD : (splitNl s).getLastD [] = (splitNl s).getLast hne := by
        rw [List.getLastD_eq_getLast?, List.getLast?_eq_getLast _ hne]
        rfl
      rw [hD]
      exact mem_splitNl_no_nl (List.getLast_mem hne)

/-- The shape of every key/value pair a successful or partial parse can
put into the vault's map: the key is nonempty, trimmed, free of `=`
and newlines and does not start with `#`; the value is free of
newlines. -/
structure GoodPair (p : Str × Str) : Prop where
  keyNe : p.1 ≠ []
  keyTrim : trim p.1 = p.1
  keyNoEq : '=' ∉ p.1
  keyNoNl : '\n' ∉ p.1
  keyNoHash : p.1.head? ≠ some '#'
  valNoNl : '\n' ∉ p.2

/-- The keys of the vault map. -/
def keysOf (m : EnvMap) : List Str := m.map Prod.fst

theorem keysOf_envInsert_nodup {m : EnvMap} (k v : Str) (h : (keysOf m).Nodup) :
    (keysOf (envInsert m k v)).Nodup := by
  rw [keysOf, envInsert, List.map_cons]
  refine List.nodup_cons.mpr ⟨?_, ?_⟩
  · intro hmem
    obtain ⟨p, hp, hpk⟩ := List.mem_map.mp hmem
    have := (List.mem_filter.mp hp).2
    rw [hpk] at this
    simp at this
  · exact ((List.filter_sublist m).map Prod.fst).nodup h

theorem mem_envInsert {p : Str × Str} {m : EnvMap} {k v : Str}
    (h : p ∈ envInsert m k v) : p = (k, v) ∨ p ∈ m := by
  rcases List.mem_cons.mp h with h1 | h1
  · exact Or.inl h1
  · exact Or.inr ((List.mem_filter.mp h1).1)

theorem goodPair_inserted {line k₀ r₀ : Str}
    (hline : '\n' ∉ line)
    (hskip : ¬(trim line = [] ∨ (trim line).head? = some '#'))
    (hsplit : splitOnceEq (trim line) = some (k₀, r₀))
    (hkey : trim k₀ ≠ []) :
    GoodPair (trim k₀, parse_value (trim r₀)) := by
  obtain ⟨heq, hnoeq⟩ := splitOnceEq_some hsplit
  push_neg at hskip
  have hk₀ne : k₀ ≠ [] := by
    intro h0
    exact hkey (by rw [h0]; rfl)
  obtain ⟨c, k₀', rfl⟩ : ∃ c k₀', k₀ = c :: k₀' := by
    cases k₀ with
    | nil => exact absurd rfl hk₀ne
    | cons c k₀' => exact ⟨c, k₀', rfl⟩
  have hlhead : (trim line).head? = some c := by rw [heq]; rfl
  have hcws : isWs c = false := head?_trim hlhead
  have hchash : c ≠ '#' := fun h => hskip.2 (by rw [hlhead, h])
  have htl : trimLeft (c :: k₀') = c :: k₀' :=
    trimLeft_eq_self (fun d hd => by
      rw [List.head?_cons, Option.some.injEq] at hd
      rw [← hd]
      exact hcws)
  have hkeyr : trim (c :: k₀') = trimRight (c :: k₀') := by rw [trim, htl]
  have hpre : trim (c :: k₀') <+: c :: k₀' := hkeyr ▸ trimRight_prefix_self _
  have hkeyhead : (trim (c :: k₀')).head? = some c :=
    (prefix_head?_eq hpre hkey).symm
  have hmem_key_line : ∀ x, x ∈ trim (c :: k₀') → x ∈ line := by
    intro x hx
    refine mem_trim (s := line) ?_
    rw [heq]
    exact List.mem_append_left _ (mem_trim hx)
  refine ⟨hkey, trim_idem _, ?_, ?_, ?_, ?_⟩
  · intro h
    exact hnoeq (mem_trim h)
  · intro h
    exact hline (hmem_key_line _ h)
  · rw [hkeyhead]
    intro h
    exact hchash (Option.some.inj h)
  · intro h
    have h1 : '\n' ∈ trim r₀ := mem_parse_value h
    have h2 : '\n' ∈ trim line := by
      rw [heq]
      exact List.mem_append_right _ (List.mem_cons_of_mem _ (mem_trim h1))
    exact hline (mem_trim h2)

theorem parseEnvLines_good : ∀ (ls : List Str) (m₀ : EnvMap) (n : ℕ),
    (∀ l ∈ ls, '\n' ∉ l) → (∀ p ∈ m₀, GoodPair p) →
    ∀ p ∈ (parseEnvLines m₀ n ls).1, GoodPair p := by
  intro ls
  induction ls with
  | nil =>
      intro m₀ n _ hm p hp
      exact hm p (by simpa [parseEnvLines] using hp)
  | cons line rest ih =>
      intro m₀ n hnl hm p hp
      have hnl_rest : ∀ l ∈ rest, '\n' ∉ l := fun l h => hnl l (List.mem_cons_of_mem _ h)
      have hline : '\n' ∉ line := hnl line (List.mem_cons_self _ _)
      simp only [parseEnvLines] at hp
      by_cases hskip : trim line = [] ∨ (trim line).head? = some '#'
      · rw [if_pos hskip] at hp
        exact ih m₀ (n + 1) hnl_rest hm p hp
      · rw [if_neg hskip] at hp
        split at hp
        · rename_i k₀ r₀ hsplit
          split at hp
          · exact hm p (by simpa using hp)
          · rename_i hkey
            refine ih _ (n + 1) hnl_rest ?_ p hp
            intro q hq
            rcases mem_envInsert hq with rfl | hq'
            · exact goodPair_inserted hline hskip hsplit hkey
            · exact hm q hq'
        · exact hm p (by simpa using hp)

theorem parseEnvLines_nodup : ∀ (ls : List Str) (m₀ : EnvMap) (n : ℕ),
    (keysOf m₀).Nodup → (keysOf (parseEnvLines m₀ n ls).1).Nodup := by
  intro ls
  induction ls with
  | nil =>
      intro m₀ n hm
      simpa [parseEnvLines] using hm
  | cons line rest ih =>
      intro m₀ n hm
      simp only [parseEnvLines]
      by_cases hskip : trim line = [] ∨ (trim line).head? = some '#'
      · rw [if_pos hskip]
        exact ih m₀ (n + 1) hm
      · rw [if_neg hskip]
        split
        · rename_i k₀ r₀ hsplit
          split
          · simpa using hm
          · exact ih _ (n + 1) (keysOf_envInsert_nodup _ _ hm)
        · simpa using hm

theorem parseEnvLines_eq_specAmended : ∀ (ls : List Str) (m : EnvMap) (n : ℕ),
    parseEnvLines m n ls = specParseLinesWith (fun r => stripQuotes (trim r)) m n ls := by
  intro ls
  induction ls with
  | nil => intro m n; rfl
  | cons line rest ih =>
      intro m n
      simp only [parseEnvLines, specParseLinesWith]
      by_cases hskip : trim line = [] ∨ (trim line).head? = some '#'
      · rw [if_pos hskip, if_pos hskip, ih]
      · rw [if_neg hskip, if_neg hskip]
        split
        · rename_i k₀ r₀ hsplit
          by_cases hkey : trim k₀ = []
          · rw [if_pos hkey, if_pos hkey]
          · rw [if_neg hkey, if_neg hkey]
            have hv : parse_value (trim r₀) = stripQuotes (trim r₀) := by
              show stripQuotes (trim (trim r₀)) = stripQuotes (trim r₀)
              rw [trim_idem]
            rw [hv, ih]
        · rfl

/-- C8 counterexample: on the line `K= a` the code parses the value
`a` (the remainder after `=` is trimmed before quote stripping), while
the claim's literal reading — the value is the remainder after `=`
with outer quotes stripped, no trimming — yields ` a`. -/
theorem env_parse_line_counterexample :
    parse_env_contents [] ("K= a".toList) = ([("K".toList, "a".toList)], none) ∧
    specParseLiteral [] ("K= a".toList) = ([("K".toList, " a".toList)], none) ∧
    ("a".toList : Str) ≠ " a".toList := by
  refine ⟨by decide, by decide, by decide⟩

/-- C8 (amended): env-file parsing behaves per the grammar on every
line — empty and `#` lines (after trimming) are skipped; a line
without `=` or with an empty trimmed key fails with `EnvParseError`
carrying that line's 1-based number; otherwise the trimmed key maps to
the whitespace-trimmed remainder after `=` with one pair of matching
outer single or double quotes then stripped. -/
theorem env_parse_matches_grammar (m : EnvMap) (contents : Str) :
    parse_env_contents m contents = specParseAmended m contents := by
  rw [parse_env_contents, specParseAmended]
  exact parseEnvLines_eq_specAmended _ m 0

theorem parseEnvLines_partial : ∀ (ls : List Str) (m₀ : EnvMap) (n : ℕ)
    (m : EnvMap) (e : RiftError), parseEnvLines m₀ n ls = (m, some e) →
    ∃ j, j < ls.length ∧ parseEnvLines m₀ n (ls.take j) = (m, none) ∧
      (e = .envParseError (emptyKeyMsg (n + j + 1)) ∨
        e = .envParseError (invalidFormatMsg (n + j + 1))) := by
  intro ls
  induction ls with
  | nil =>
      intro m₀ n m e h
      simp [parseEnvLines] at h
  | cons line rest ih =>
      intro m₀ n m e h
      simp only [parseEnvLines] at h
      by_cases hskip : trim line = [] ∨ (trim line).head? = some '#'
      · rw [if_pos hskip] at h
        obtain ⟨j, hj, hpar, hmsg⟩ := ih m₀ (n + 1) m e h
        refine ⟨j + 1, by simpa using Nat.succ_lt_succ hj, ?_, ?_⟩
        · simp only [List.take_succ_cons, parseEnvLines, if_pos hskip]
          exact hpar
        · rw [show n + 1 + j + 1 = n + (j + 1) + 1 by omega] at hmsg
          exact hmsg
      · rw [if_neg hskip] at h
        split at h
        · rename_i k₀ r₀ hsplit
          split at h
          · rename_i hkey
            obtain ⟨hm, he⟩ := Prod.mk.inj h
            refine ⟨0, by simp, ?_, ?_⟩
            · simp [parseEnvLines, hm]
            · left
              rw [← Option.some.inj he]
          · rename_i hkey
            obtain ⟨j, hj, hpar, hmsg⟩ := ih _ (n + 1) m e h
            refine ⟨j + 1, by simpa using Nat.succ_lt_succ hj, ?_, ?_⟩
            · simp only [List.take_succ_cons, parseEnvLines, if_neg hskip]
              rw [hsplit]
              simp only [if_neg hkey]
              exact hpar
            · rw [show n + 1 + j + 1 = n + (j + 1) + 1 by omega] at hmsg
              exact hmsg
        · rename_i hsplit
          obtain ⟨hm, he⟩ := Prod.mk.inj h
          refine ⟨0, by simp, ?_, ?_⟩
          · simp [parseEnvLines, hm]
          · right
            rw [← Option.some.inj he]

/-- C10: env loading is not atomic.  If parsing fails with
`EnvParseError` at (1-based) line `j+1`, the returned vault map is
exactly the map obtained by fully processing the first `j` lines from
the initial state: every valid declaration before the failing line has
been inserted (later duplicates of a key keeping the last-inserted
value, per `envInsert`) and remains after the error. -/
theorem env_load_not_atomic (m₀ : EnvMap) (contents : Str) (m : EnvMap)
    (e : RiftError) (h : parse_env_contents m₀ contents = (m, some e)) :
    ∃ j, j < (rustLines contents).length ∧
      parseEnvLines m₀ 0 ((rustLines contents).take j) = (m, none) ∧
      (e = .envParseError (emptyKeyMsg (j + 1)) ∨
        e = .envParseError (invalidFormatMsg (j + 1))) := by
  obtain ⟨j, hj, hpar, hmsg⟩ := parseEnvLines_partial (rustLines contents) m₀ 0 m e h
  exact ⟨j, hj, hpar, by simpa using hmsg⟩

/-- Witness for C10: `A=1\nBAD` fails at line 2 with the first
line's declaration already inserted and kept. -/
theorem env_load_not_atomic_witness :
    parse_env_contents [] ("A=1\nBAD".toList)
      = ([("A".toList, "1".toList)], some (.envParseError (invalidFormatMsg 2))) ∧
    ∃ j, j < (rustLines ("A=1\nBAD".toList)).length ∧
      parseEnvLines [] 0 ((rustLines ("A=1\nBAD".toList)).take j)
        = ([("A".toList, "1".toList)], none) ∧
      (RiftError.envParseError (invalidFormatMsg 2)
          = .envParseError (emptyKeyMsg (j + 1)) ∨
        RiftError.envParseError (invalidFormatMsg 2)
          = .envParseError (invalidFormatMsg (j + 1))) :=
  ⟨by decide, env_load_not_atomic [] _ _ _ (by decide)⟩

theorem insertSorted_perm (x : Str) : ∀ l : List Str, List.Perm (insertSorted x l) (x :: l) := by
  intro l
  induction l with
  | nil => rfl
  | cons y ys ih =>
      rw [insertSorted]
      by_cases h : lexLe x y
      · rw [if_pos h]
      · rw [if_neg h]
        exact (ih.cons y).trans (List.Perm.swap x y ys)

theorem sortLines_perm : ∀ ls : List Str, List.Perm (sortLines ls) ls := by
  intro ls
  induction ls with
  | nil => rfl
  | cons x xs ih => exact (insertSorted_perm x (sortLines xs)).trans (ih.cons x)

theorem mem_of_head? {s : Str} {c : Char} (h : s.head? = some c) : c ∈ s := by
  cases s with
  | nil => simp at h
  | cons a t =>
      rw [List.head?_cons, Option.some.injEq] at h
      simp [← h]

theorem head_not_ws_of_trimmed {s : Str} {c : Char} (hts : trim s = s)
    (h : s.head? = some c) : isWs c = false :=
  head?_trim (by rw [hts]; exact h)

theorem last_not_ws_of_trimmed {s : Str} {c : Char} (hts : trim s = s)
    (h : s.getLast? = some c) : isWs c = false :=
  getLast?_trim (by rw [hts]; exact h)

/-- The key and value a line contributes when it parses as a
declaration. -/
def lineKV (l : Str) : Str × Str :=
  match splitOnceEq (trim l) with
  | some (k₀, r₀) => (trim k₀, parse_value (trim r₀))
  | none => ([], [])

/-- A line the parser accepts as a `KEY=VALUE` declaration. -/
def InsertLine (l : Str) : Prop :=
  ¬(trim l = [] ∨ (trim l).head? = some '#') ∧
    ∃ k₀ r₀, splitOnceEq (trim l) = some (k₀, r₀) ∧ trim k₀ ≠ []

theorem parseEnvLines_insertLines : ∀ (ls : List Str) (m : EnvMap) (n : ℕ),
    (∀ l ∈ ls, InsertLine l) →
    parseEnvLines m n ls
      = (ls.foldl (fun mm l => envInsert mm (lineKV l).1 (lineKV l).2) m, none) := by
  intro ls
  induction ls with
  | nil => intro m n _; rfl
  | cons l ls ih =>
      intro m n hins
      obtain ⟨hskip, k₀, r₀, hsplit, hkey⟩ := hins l (List.mem_cons_self _ _)
      have hins_rest : ∀ x ∈ ls, InsertLine x := fun x hx => hins x (List.mem_cons_of_mem _ hx)
      simp only [parseEnvLines, if_neg hskip]
      split
      · rename_i k₀' r₀' hsplit'
        have hkey' : trim k₀' ≠ [] := by
          rw [hsplit'] at hsplit
          obtain ⟨h1, h2⟩ := Prod.mk.inj (Option.some.inj hsplit)
          rw [h1]
          exact hkey
        rw [if_neg hkey']
        rw [ih _ (n + 1) hins_rest, List.foldl_cons]
        have hkv : lineKV l = (trim k₀', parse_value (trim r₀')) := by
          unfold lineKV
          rw [hsplit']
        rw [hkv]
      · rename_i hsplit'
        rw [hsplit'] at hsplit
        exact absurd hsplit (by simp)

theorem contains_iff_mem {l : Str} {a : Char} : l.contains a = true ↔ a ∈ l :=
  List.elem_iff

theorem not_mem_of_contains_eq_false {l : Str} {a : Char}
    (h : l.contains a = false) : a ∉ l := fun hmem => by
  rw [contains_iff_mem.mpr hmem] at h
  exact Bool.true_eq_false.mp h

theorem ne_cr_of_not_ws {d : Char} (h : isWs d = false) : d ≠ '\r' := by
  intro hd
  rw [hd] at h
  exact absurd h (by decide)

theorem parse_value_eq_stripQuotes (v : Str) :
    parse_value v = stripQuotes (trim v) := rfl

theorem quotedPart_getLast? (e : Str) :
    (dq :: (e ++ [dq])).getLast? = some dq := by
  rw [show dq :: (e ++ [dq]) = (dq :: e) ++ [dq] by simp]
  exact List.getLast?_concat _

/-- The quoted value part written by the serializer round-trips
through `parse_value`. -/
theorem parse_value_quoted {v : Str} (hdq : dq ∉ v) :
    parse_value (trim (dq :: (escapeDq v ++ [dq]))) = v := by
  have hvtrim : trim (dq :: (escapeDq v ++ [dq])) = dq :: (escapeDq v ++ [dq]) := by
    refine trim_eq_self ?_ ?_
    · intro d hd
      rw [List.head?_cons, Option.some.injEq] at hd
      rw [← hd]; decide
    · intro d hd
      rw [quotedPart_getLast?] at hd
      rw [← Option.some.inj hd]; decide
  rw [hvtrim, parse_value_eq_stripQuotes, hvtrim, stripQuotes]
  rw [if_pos ?side]
  case side =>
    refine ⟨Or.inl ⟨rfl, quotedPart_getLast? _⟩, by simp⟩
  rw [List.drop_one, List.tail_cons, List.dropLast_concat, escapeDq_eq_self hdq]

/-- A bare (unquoted, trim-stable) value round-trips through
`parse_value`. -/
theorem parse_value_bare {v : Str} (hdq : dq ∉ v) (hsq : sq ∉ v)
    (hts : trim v = v) : parse_value (trim v) = v := by
  rw [hts, parse_value_eq_stripQuotes, hts, stripQuotes, if_neg]
  rintro ⟨hq | hq, -⟩
  · exact hdq (mem_of_head? hq.1)
  · exact hsq (mem_of_head? hq.1)

theorem formatPair_facts {p : Str × Str} (hg : GoodPair p) (hdq : dq ∉ p.2)
    (hbare : ' ' ∉ p.2 → sq ∉ p.2 → trim p.2 = p.2) :
    formatPair p ≠ [] ∧ '\n' ∉ formatPair p ∧
      (formatPair p).getLast? ≠ some '\r' ∧
      InsertLine (formatPair p) ∧ lineKV (formatPair p) = p := by
  obtain ⟨c, k', hk⟩ : ∃ c k', p.1 = c :: k' := by
    cases hp1 : p.1 with
    | nil => exact absurd hp1 hg.keyNe
    | cons c k' => exact ⟨c, k', rfl⟩
  have hcws : isWs c = false := head_not_ws_of_trimmed hg.keyTrim (by rw [hk]; rfl)
  have hchash : c ≠ '#' := fun h => hg.keyNoHash (by rw [hk, h]; rfl)
  obtain ⟨vp, hvp, hvplast, hvpnl, hvpval⟩ :
      ∃ vp, formatPair p = p.1 ++ '=' :: vp ∧
        (∀ d, ('=' :: vp).getLast? = some d → isWs d = false) ∧
        '\n' ∉ vp ∧ parse_value (trim vp) = p.2 := by
    rw [formatPair]
    by_cases hq : p.2.contains ' ' || p.2.contains dq || p.2.contains sq
    · rw [if_pos hq]
      refine ⟨dq :: (escapeDq p.2 ++ [dq]), rfl, ?_, ?_, parse_value_quoted hdq⟩
      · intro d hd
        have hlast : ('=' :: dq :: (escapeDq p.2 ++ [dq])).getLast? = some dq := by
          rw [show '=' :: dq :: (escapeDq p.2 ++ [dq])
              = ('=' :: dq :: escapeDq p.2) ++ [dq] by simp]
          exact List.getLast?_concat _
        rw [hlast] at hd
        rw [← Option.some.inj hd]
        decide
      · intro hmem
        rcases List.mem_cons.mp hmem with h1 | h1
        · exact absurd h1.symm (by decide)
        · rcases List.mem_append.mp h1 with h2 | h2
          · rcases mem_escapeDq h2 with h3 | h3
            · exact hg.valNoNl h3
            · exact absurd h3 (by decide)
          · exact absurd (List.mem_singleton.mp h2) (by decide)
    · rw [if_neg hq]
      simp only [Bool.or_eq_true, not_or, Bool.not_eq_true] at hq
      have hsp : ' ' ∉ p.2 := not_mem_of_contains_eq_false hq.1.1
      have hsq : sq ∉ p.2 := not_mem_of_contains_eq_false hq.2
      have hts : trim p.2 = p.2 := hbare hsp hsq
      refine ⟨p.2, rfl, ?_, hg.valNoNl, parse_value_bare hdq hsq hts⟩
      intro d hd
      cases hv2 : p.2 with
      | nil =>
          rw [hv2] at hd
          rw [← Option.some.inj hd]
          decide
      | cons x xs =>
          have hne2 : p.2 ≠ [] := by rw [hv2]; simp
          have heq2 : ('=' :: p.2).getLast? = p.2.getLast? := by
            rw [show ('=' :: p.2 : Str) = ['='] ++ p.2 by simp, List.getLast?_append]
            cases hg2 : p.2.getLast? with
            | none => exact absurd (List.getLast?_eq_none_iff.mp hg2) hne2
            | some y => rfl
          rw [heq2] at hd
          exact last_not_ws_of_trimmed hts hd
  have hline_ne : formatPair p ≠ [] := by
    rw [hvp, hk]
    simp
  have hline_head : (formatPair p).head? = some c := by
    rw [hvp, hk]
    rfl
  have hline_nl : '\n' ∉ formatPair p := by
    rw [hvp]
    intro hmem
    rcases List.mem_append.mp hmem with h1 | h1
    · exact hg.keyNoNl h1
    · rcases List.mem_cons.mp h1 with h2 | h2
      · exact absurd h2 (by decide)
      · exact hvpnl h2
  have hline_last : ∀ d, (formatPair p).getLast? = some d → isWs d = false := by
    intro d hd
    rw [hvp, List.getLast?_append] at hd
    cases hg2 : ('=' :: vp).getLast? with
    | none => exact absurd (List.getLast?_eq_none_iff.mp hg2) (by simp)
    | some y =>
        rw [hg2, Option.or_some] at hd
        rw [← Option.some.inj hd]
        exact hvplast y hg2
  have hline_trim : trim (formatPair p) = formatPair p := by
    refine trim_eq_self ?_ hline_last
    intro d hd
    rw [hline_head, Option.some.injEq] at hd
    rw [← hd]
    exact hcws
  have hsplit : splitOnceEq (formatPair p) = some (p.1, vp) := by
    rw [hvp]
    exact splitOnceEq_append vp hg.keyNoEq
  refine ⟨hline_ne, hline_nl, ?_, ⟨?_, p.1, vp, ?_, ?_⟩, ?_⟩
  · intro hd
    exact ne_cr_of_not_ws (hline_last '\r' hd) rfl
  · rw [hline_trim]
    push_neg
    refine ⟨hline_ne, ?_⟩
    rw [hline_head]
    intro h
    exact hchash (Option.some.inj h)
  · rw [hline_trim]
    exact hsplit
  · rw [hg.keyTrim]
    exact hg.keyNe
  · unfold lineKV
    rw [hline_trim, hsplit]
    show (trim p.1, parse_value (trim vp)) = p
    rw [hg.keyTrim, hvpval]

theorem lookup_filter_ne {m : EnvMap} {k a : Str} (h : ¬a = k) :
    List.lookup a (m.filter (fun p => !(p.1 == k))) = List.lookup a m := by
  induction m with
  | nil => rfl
  | cons p t ih =>
      by_cases hp : p.1 = k
      · rw [List.filter_cons_of_neg (by simp [hp])]
        rw [ih]
        rw [List.lookup_cons]
        have : (a == p.1) = false := beq_eq_false_iff_ne.mpr (by rw [hp]; exact h)
        rw [this]
      · rw [List.filter_cons_of_pos (by simp [hp])]
        rw [List.lookup_cons, List.lookup_cons]
        cases hab : a == p.1 with
        | true => rfl
        | false => exact ih

theorem lookup_envInsert (m : EnvMap) (k v a : Str) :
    List.lookup a (envInsert m k v) = if a = k then some v else List.lookup a m := by
  rw [envInsert, List.lookup_cons]
  by_cases h : a = k
  · rw [if_pos h]
    have : (a == k) = true := beq_iff_eq.mpr h
    rw [this]
  · rw [if_neg h]
    have : (a == k) = false := beq_eq_false_iff_ne.mpr h
    rw [this]
    exact lookup_filter_ne h

theorem lookup_append (a : Str) : ∀ l₁ l₂ : EnvMap,
    List.lookup a (l₁ ++ l₂) = (List.lookup a l₁).or (List.lookup a l₂) := by
  intro l₁
  induction l₁ with
  | nil => intro l₂; simp [List.lookup]
  | cons p t ih =>
      intro l₂
      rw [List.cons_append, List.lookup_cons, List.lookup_cons]
      cases hab : a == p.1 with
      | true => rfl
      | false => exact ih l₂

theorem lookup_foldl_envInsert (a : Str) : ∀ (ps : List (Str × Str)) (m₀ : EnvMap),
    List.lookup a (ps.foldl (fun mm q => envInsert mm q.1 q.2) m₀)
      = (List.lookup a ps.reverse).or (List.lookup a m₀) := by
  intro ps
  induction ps with
  | nil => intro m₀; simp [List.lookup]
  | cons q ps ih =>
      intro m₀
      rw [List.foldl_cons, ih (envInsert m₀ q.1 q.2), List.reverse_cons,
        lookup_append, Option.or_assoc, lookup_envInsert]
      congr 1
      rw [List.lookup_cons]
      by_cases h : a = q.1
      · have hb : (a == q.1) = true := beq_iff_eq.mpr h
        rw [hb, if_pos h]
        rfl
      · have hb : (a == q.1) = false := beq_eq_false_iff_ne.mpr h
        rw [hb, if_neg h]
        rfl

theorem lookup_eq_some_of_mem : ∀ {ps : EnvMap} {k v : Str},
    (keysOf ps).Nodup → (k, v) ∈ ps → List.lookup k ps = some v := by
  intro ps
  induction ps with
  | nil => intro k v _ h; simp at h
  | cons p t ih =>
      intro k v hnd h
      rw [keysOf, List.map_cons, List.nodup_cons] at hnd
      rw [List.lookup_cons]
      rcases List.mem_cons.mp h with h1 | h1
      · rw [← h1]
        rw [show ((k, v).1 == (k, v).1) = true from beq_iff_eq.mpr rfl]
      · by_cases hk : k = p.1
        · exfalso
          apply hnd.1
          rw [← hk]
          exact List.mem_map.mpr ⟨(k, v), h1, rfl⟩
        · rw [beq_eq_false_iff_ne.mpr hk]
          exact ih hnd.2 h1

theorem lookup_eq_none_of_not_mem_keys : ∀ {ps : EnvMap} {k : Str},
    k ∉ keysOf ps → List.lookup k ps = none := by
  intro ps
  induction ps with
  | nil => intro k _; rfl
  | cons p t ih =>
      intro k h
      rw [keysOf, List.map_cons] at h
      rw [List.lookup_cons]
      have hk : k ≠ p.1 := fun hk => h (by rw [hk]; exact List.mem_cons_self _ _)
      rw [beq_eq_false_iff_ne.mpr hk]
      exact ih (fun hm => h (List.mem_cons_of_mem _ hm))

theorem mem_of_lookup_eq_some : ∀ {ps : EnvMap} {k v : Str},
    List.lookup k ps = some v → (k, v) ∈ ps := by
  intro ps
  induction ps with
  | nil => intro k v h; simp [List.lookup] at h
  | cons p t ih =>
      intro k v h
      rw [List.lookup_cons] at h
      cases hab : k == p.1 with
      | true =>
          rw [hab] at h
          have hk : k = p.1 := eq_of_beq hab
          have hv : p.2 = v := Option.some.inj h
          have hp : (k, v) = p := by rw [hk, ← hv]
          rw [hp]
          exact List.mem_cons_self _ _
      | false =>
          rw [hab] at h
          exact List.mem_cons_of_mem _ (ih h)

theorem lookup_perm {ps qs : EnvMap} (hperm : List.Perm ps qs)
    (hnd : (keysOf qs).Nodup) (k : Str) :
    List.lookup k ps = List.lookup k qs := by
  have hndp : (keysOf ps).Nodup := ((hperm.map Prod.fst).nodup_iff).mpr hnd
  cases hq : List.lookup k qs with
  | none =>
      apply lookup_eq_none_of_not_mem_keys
      intro hk
      obtain ⟨p, hpm, hpk⟩ := List.mem_map.mp hk
      have hqm : p ∈ qs := hperm.subset hpm
      have : List.lookup k qs = some p.2 :=
        lookup_eq_some_of_mem hnd (by rw [← hpk]; exact hqm)
      rw [hq] at this
      exact Option.noConfusion this
  | some v =>
      exact lookup_eq_some_of_mem hndp (hperm.symm.subset (mem_of_lookup_eq_some hq))

/-- C4 counterexample: the map `K ↦ a"b` is obtainable by parsing, but
the serializer escapes the inner double quote (`K="a\"b"`) and the
parser does not undo the escape, so re-parsing yields `a\"b`. -/
theorem env_roundtrip_counterexample :
    parse_env_contents [] ("K=a\"b".toList) = ([("K".toList, "a\"b".toList)], none) ∧
    parse_env_contents [] (to_env_format [("K".toList, "a\"b".toList)])
      = ([("K".toList, "a\\\"b".toList)], none) ∧
    ("a\\\"b".toList : Str) ≠ "a\"b".toList :=
  ⟨by decide, by decide, by decide⟩

/-- C4 (amended): for every key/value map obtainable by parsing in
which no value contains a double-quote character and every value free
of spaces and single quotes is stable under trimming, parsing the
string produced by the env-format serializer yields back exactly the
same map (values containing spaces or single quotes included). -/
theorem env_roundtrip (contents : Str) (m : EnvMap)
    (hp : parse_env_contents [] contents = (m, none))
    (hdq : ∀ p ∈ m, dq ∉ p.2)
    (hbare : ∀ p ∈ m, ' ' ∉ p.2 → sq ∉ p.2 → trim p.2 = p.2) :
    ∃ m', parse_env_contents [] (to_env_format m) = (m', none) ∧
      ∀ k, List.lookup k m' = List.lookup k m := by
  have hm_eq : (parseEnvLines [] 0 (rustLines contents)).1 = m := by
    rw [parse_env_contents] at hp
    rw [hp]
  have hgood : ∀ p ∈ m, GoodPair p := by
    rw [← hm_eq]
    exact parseEnvLines_good _ [] 0 (fun l hl => mem_rustLines_no_nl hl) (by simp)
  have hnd : (keysOf m).Nodup := by
    rw [← hm_eq]
    exact parseEnvLines_nodup _ [] 0 (by simp [keysOf])
  have hfacts : ∀ q ∈ m, formatPair q ≠ [] ∧ '\n' ∉ formatPair q ∧
      (formatPair q).getLast? ≠ some '\r' ∧ InsertLine (formatPair q) ∧
      lineKV (formatPair q) = q :=
    fun q hq => formatPair_facts (hgood q hq) (hdq q hq) (hbare q hq)
  by_cases hm0 : m = []
  · subst hm0
    exact ⟨[], rfl, fun k => rfl⟩
  · set ls := sortLines (m.map formatPair) with hls
    have hperm : List.Perm ls (m.map formatPair) := sortLines_perm _
    have hmemls : ∀ l ∈ ls, ∃ q ∈ m, formatPair q = l := by
      intro l hl
      exact List.mem_map.mp (hperm.subset hl)
    have hne : ls ≠ [] := by
      intro h0
      apply hm0
      have hlen : ls.length = (m.map formatPair).length := hperm.length_eq
      rw [h0] at hlen
      have hml : m.length = 0 := by simpa using hlen.symm
      exact List.length_eq_zero.mp hml
    have hrl : rustLines (to_env_format m) = ls := by
      rw [to_env_format, ← hls]
      refine rustLines_joinNl hne ?_ ?_ ?_
      · intro l hl
        obtain ⟨q, hq, rfl⟩ := hmemls l hl
        exact (hfacts q hq).2.1
      · intro l hl
        obtain ⟨q, hq, rfl⟩ := hmemls l hl
        exact (hfacts q hq).1
      · intro l hl
        obtain ⟨q, hq, rfl⟩ := hmemls l hl
        exact (hfacts q hq).2.2.1
    have hinsert : ∀ l ∈ ls, InsertLine l := by
      intro l hl
      obtain ⟨q, hq, rfl⟩ := hmemls l hl
      exact (hfacts q hq).2.2.2.1
    have hparse := parseEnvLines_insertLines ls [] 0 hinsert
    refine ⟨ls.foldl (fun mm l => envInsert mm (lineKV l).1 (lineKV l).2) [], ?_, ?_⟩
    · rw [parse_env_contents, hrl, hparse]
    · intro k
      rw [show (ls.foldl (fun mm l => envInsert mm (lineKV l).1 (lineKV l).2) ([] : EnvMap))
          = ((ls.map lineKV).foldl (fun mm q => envInsert mm q.1 q.2) ([] : EnvMap)) by
        rw [List.foldl_map]]
      rw [lookup_foldl_envInsert]
      rw [show List.lookup k ([] : EnvMap) = none from rfl, Option.or_none]
      have hpairs : List.Perm ((ls.map lineKV).reverse) m := by
        refine (List.reverse_perm _).trans ?_
        have h1 : List.Perm (ls.map lineKV) ((m.map formatPair).map lineKV) := hperm.map _
        have h2 : (m.map formatPair).map lineKV = m := by
          rw [List.map_map]
          have hcongr : ∀ q ∈ m, (lineKV ∘ formatPair) q = id q :=
            fun q hq => (hfacts q hq).2.2.2.2
          rw [List.map_congr_left hcongr, List.map_id]
        rw [h2] at h1
        exact h1
      exact lookup_perm hpairs hnd k

/-- Witness for C4 at a concrete parse-obtainable map with a plain
value, a value containing spaces, and a single-quoted value. -/
theorem env_roundtrip_witness :
    parse_env_contents [] ("B=2\nA=1 x\nC='q w'".toList)
      = ([("C".toList, "q w".toList), ("A".toList, "1 x".toList),
          ("B".toList, "2".toList)], none) ∧
    ∃ m', parse_env_contents []
        (to_env_format [("C".toList, "q w".toList), ("A".toList, "1 x".toList),
          ("B".toList, "2".toList)]) = (m', none) ∧
      ∀ k, List.lookup k m'
        = List.lookup k [("C".toList, "q w".toList), ("A".toList, "1 x".toList),
            ("B".toList, "2".toList)] :=
  ⟨by decide,
    env_roundtrip ("B=2\nA=1 x\nC='q w'".toList) _ (by decide) (by decide) (by decide)⟩

/-! ## Peer links (wh-core/src/network/identity.rs)

`to_rift_link` formats `rift://<PeerID>` and `parse_rift_link` strips
the `rift://` prefix and parses the tail as a Peer ID.  Modelled from
the spec: the Peer ID itself is libp2p's base58-rendered multihash of
the public key (external crate); a Peer ID is embedded as the natural
number its base58 string encodes, rendered with the standard base58
alphabet, and `str::parse::<PeerId>` as the partial inverse accepting
exactly the canonical renderings. -/

/-- The base58btc alphabet. -/
def b58Alphabet : Str :=
  "123456789ABCDEFGHJKLMNPQRSTUVWXYZabcdefghijkmnopqrstuvwxyz".toList

/-- Modelled from the spec: render a Peer ID digest in base 58,
most-significant digit first. -/
def natToB58 (n : ℕ) : Str :=
  if n = 0 then ['1']
  else ((Nat.digits 58 n).map (fun d => b58Alphabet.getD d ' ')).reverse

/-- Position of a character in the base58 alphabet. -/
def b58Index (c : Char) : ℕ → Str → Option ℕ
  | _, [] => none
  | i, a :: as => if c = a then some i else b58Index c (i + 1) as

/-- The digit value of a base58 character, if any. -/
def b58CharVal (c : Char) : Option ℕ := b58Index c 0 b58Alphabet

/-- One step of base58 decoding. -/
def b58Step (acc : Option ℕ) (c : Char) : Option ℕ :=
  acc.bind (fun n => (b58CharVal c).map (fun d => n * 58 + d))

/-- Decode a base58 string, failing on any non-alphabet character. -/
def b58ToNat? (s : Str) : Option ℕ := s.foldl b58Step (some 0)

/-- Modelled from the spec: `str::parse::<PeerId>` — decode the tail
as base58 and accept exactly the canonical renderings. -/
def parsePeerId (s : Str) : Option ℕ :=
  match b58ToNat? s with
  | some n => if natToB58 n = s then some n else none
  | none => none

/-- brand.rs: the link scheme prefix. -/
def riftScheme : Str := "rift://".toList

/-- identity.rs `to_rift_link`. -/
def to_rift_link (p : ℕ) : Str := riftScheme ++ natToB58 p

/-- `str::strip_prefix`: remove a literal prefix, or fail. -/
def dropScheme : Str → Str → Option Str
  | [], s => some s
  | _ :: _, [] => none
  | c :: cs, x :: xs => if x = c then dropScheme cs xs else none

/-- identity.rs `parse_rift_link`: strip `rift://`, then parse the
tail as a Peer ID; both failure modes are `InvalidPeerId`. -/
def parse_rift_link (link : Str) : Except RiftError ℕ :=
  match dropScheme riftScheme link with
  | none => .error (.invalidPeerId "Link must start with rift://")
  | some tail =>
      match parsePeerId tail with
      | some p => .ok p
      | none => .error (.invalidPeerId "Invalid peer ID")

theorem dropScheme_append : ∀ pre s : Str, dropScheme pre (pre ++ s) = some s := by
  intro pre
  induction pre with
  | nil => intro s; rfl
  | cons c cs ih =>
      intro s
      simp only [List.cons_append, dropScheme, if_pos rfl]
      exact ih s

theorem b58CharVal_getD : ∀ d : ℕ, d < 58 →
    b58CharVal (b58Alphabet.getD d ' ') = some d := by decide

theorem b58_fold (ds : List ℕ) (h : ∀ d ∈ ds, d < 58) : ∀ acc : ℕ,
    List.foldl b58Step (some acc) ((ds.map (fun d => b58Alphabet.getD d ' ')).reverse)
      = some (acc * 58 ^ ds.length + Nat.ofDigits 58 ds) := by
  induction ds with
  | nil =>
      intro acc
      simp [Nat.ofDigits]
  | cons d ds ih =>
      intro acc
      rw [List.map_cons, List.reverse_cons, List.foldl_append,
        ih (fun x hx => h x (List.mem_cons_of_mem _ hx)) acc]
      have hd : d < 58 := h d (List.mem_cons_self _ _)
      simp only [List.foldl_cons, List.foldl_nil, b58Step, Option.some_bind,
        b58CharVal_getD d hd, Option.map_some', Option.some.injEq]
      rw [Nat.ofDigits_cons, List.length_cons]
      ring

theorem b58ToNat?_natToB58 (p : ℕ) : b58ToNat? (natToB58 p) = some p := by
  by_cases hp : p = 0
  · subst hp
    decide
  · rw [natToB58, if_neg hp, b58ToNat?]
    rw [b58_fold (Nat.digits 58 p) (fun d hd => Nat.digits_lt_base (by omega) hd) 0]
    rw [Nat.ofDigits_digits]
    simp

/-- C5: for any identity (Peer ID digest `p`),
`parse_rift_link(to_rift_link(p))` succeeds and returns `p`; and any
string that is not `rift://` followed by a valid Peer ID — prefix
missing or tail unparsable — fails with the `InvalidPeerId` error
kind. -/
theorem link_roundtrip :
    (∀ p : ℕ, parse_rift_link (to_rift_link p) = .ok p) ∧
    (∀ s : Str,
      (∀ tail, dropScheme riftScheme s = some tail → parsePeerId tail = none) →
      ∃ msg, parse_rift_link s = .error (.invalidPeerId msg)) := by
  constructor
  · intro p
    have hpp : parsePeerId (natToB58 p) = some p := by
      simp [parsePeerId, b58ToNat?_natToB58]
    simp [parse_rift_link, to_rift_link, dropScheme_append, hpp]
  · intro s hs
    cases hd : dropScheme riftScheme s with
    | none =>
        refine ⟨"Link must start with rift://", ?_⟩
        simp [parse_rift_link, hd]
    | some tail =>
        refine ⟨"Invalid peer ID", ?_⟩
        simp [parse_rift_link, hd, hs tail hd]

/-- Witness for C5: `rift://0` has the scheme but `0` is not in the
base58 alphabet, so parsing fails with `InvalidPeerId`; also a
concrete round trip. -/
theorem link_roundtrip_witness :
    parse_rift_link (to_rift_link 58) = .ok 58 ∧
    ∃ msg, parse_rift_link ("rift://0".toList) = .error (.invalidPeerId msg) :=
  ⟨link_roundtrip.1 58,
    link_roundtrip.2 _ (by
      intro tail h
      rw [← Option.some.inj h]
      decide)⟩

end Rift
